import Mathlib

/-!
Verification development for the TripodTree, an indexed balanced binary tree
(`src/tripod_tree.rs`).

The tree is embedded shallowly: a node stores its element, its two children and
an explicit `size` field, exactly as the Rust `Node` struct stores
`size`, `value`, `left`, `right`.  The `up` parent pointer and the `tripod`
spare slot are representation devices for Rust's ownership discipline; the
parent pointer is recoverable from the paths of the functional tree, and the
tripod slot (a `Cell<Option<_>>`, always occupied at rest) is modelled
separately by `deployTripod` / `retractTripod` below.

The crate's `cursor` and `iter` modules are declared (`mod cursor; mod iter;`)
but their sources are not part of the repository snapshot; the cursor
primitives (`move_to`, `split_before`, `splice_before`, `splice_after`,
`insert_before`, `insert_after`, `remove_current`) and the iterator are
therefore modelled from the specification, as documented on each definition.
Tree-level operations (`len`, `at`, `split_off`, `split`, `append`, `prepend`,
`into_range`) are translated directly from `tripod_tree.rs`.

A Rust panic (a failed `assert!`/`expect`) is modelled by `Option.none`.
`usize` values are modelled by `Nat`; the only saturating operation in the
source, `saturating_add(1)` in `into_range`, is modelled by plain `Nat`
successor, which agrees with it for all values below `usize::MAX`.
-/

namespace TripodTree

/-- A tree node, or the empty tree. Mirrors `Node { size, value, left, right }`
from `src/tripod_tree.rs`, with `TripodTree.root : Option<...>` folded into the
`nil` constructor. The stored `size` field is kept explicit, as in the source,
so that the size invariant is a real statement about stored data. -/
inductive GTree (α : Type) where
  | nil : GTree α
  | node (size : Nat) (left : GTree α) (value : α) (right : GTree α) : GTree α
deriving Repr, DecidableEq

namespace GTree

variable {α : Type}

/-- Stored size of the root node, 0 for the empty tree. This is exactly
`TripodTree::len`: `self.root.as_ref().map(|node| node.borrow(token).size).unwrap_or(0)`. -/
def size : GTree α → Nat
  | nil => 0
  | node s _ _ _ => s

/-- Mirrors `TripodTree::is_empty`: `self.root.is_none()`. -/
def isEmpty : GTree α → Bool
  | nil => true
  | node _ _ _ _ => false

/-- Modelled from the spec: the sequence produced by `iter()` (§4.5), an
in-order traversal from front to back. The `iter` module source is absent. -/
def toList : GTree α → List α
  | nil => []
  | node _ l v r => toList l ++ v :: toList r

/-- The size invariant of the data model: every node's stored `size` equals
1 + size of its left subtree + size of its right subtree, recursively
(`size == 1 + size(left, or 0) + size(right, or 0)` in the source comments). -/
def sizeOk : GTree α → Bool
  | nil => true
  | node s l _ r => (s == 1 + size l + size r) && sizeOk l && sizeOk r

/-- Helper building a node whose stored size is computed from its children,
as every structural change in the source updates `size` on the rebuilt path. -/
def branch (l : GTree α) (v : α) (r : GTree α) : GTree α :=
  node (1 + size l + size r) l v r

/-- Modelled from the spec: `move_to(index)` descent (§4.3) followed by
`current()`. At each node the index is compared with the left-subtree size:
less goes left, equal stops, greater subtracts `left_size + 1` and goes right.
The `cursor` module source is absent. -/
def nthNode : GTree α → Nat → Option α
  | nil, _ => none
  | node _ l v r, i =>
    if i < size l then nthNode l i
    else if i = size l then some v
    else nthNode r (i - size l - 1)

/-- Mirrors `TripodTree::at`: returns `None` when `at >= self.len(token)`,
otherwise moves a cursor with `move_to(at)` and reads `current()`. -/
def treeAt (t : GTree α) (i : Nat) : Option α :=
  if i ≥ size t then none else nthNode t i

/-- Modelled from the spec: the join primitive (§4.4) concatenating two trees
while preserving order; the result holds the first tree's elements followed by
the second's. The spec leaves the rebalancing thresholds open (§9), so the
model attaches along the spine adjacent to the join point and restores sizes
but performs no rotations; rotations change neither order nor sizes. -/
def join : GTree α → GTree α → GTree α
  | nil, b => b
  | node s l v r, b => node (s + size b) l v (join r b)

/-- Modelled from the spec: `move_to(i)` followed by `split_before` (§4.3):
cut the tree at the gap before index `i`, into the subsequence of the first
`i` elements and the subsequence of the rest, rebuilding each side with the
join primitive as the cut climbs back to the root. -/
def splitAt : GTree α → Nat → GTree α × GTree α
  | nil, _ => (nil, nil)
  | node _ l v r, i =>
    if i < size l then
      let p := splitAt l i
      (p.1, branch p.2 v r)
    else if i = size l then
      (l, branch nil v r)
    else
      let p := splitAt r (i - size l - 1)
      (branch l v p.1, p.2)

/-- Mirrors `TripodTree::split_off`: `assert!(at <= length)` (panic modelled
as `none`), then split at the gap before `at`; after the `mem::swap` the tree
keeps the elements before `at` and the elements from `at` on are returned.
The pair is (tree left in `self`, returned tree). The precondition is checked
before any structural mutation begins. -/
def splitOff (t : GTree α) (i : Nat) : Option (GTree α × GTree α) :=
  if i ≤ size t then some (splitAt t i) else none

/-- Mirrors `TripodTree::append`: move a cursor to the back and
`splice_after(other)` (splice modelled from spec §4.3 via the join primitive).
The pair is (new state of `self`, new state of `other`); `other` is left empty. -/
def append (a b : GTree α) : GTree α × GTree α :=
  (join a b, nil)

/-- Mirrors `TripodTree::prepend`: move a cursor to the front and
`splice_before(other)`; `other`'s elements end up before `self`'s. -/
def prepend (a b : GTree α) : GTree α × GTree α :=
  (join b a, nil)

/-- Mirrors `TripodTree::singleton` / `from_value`: a single node of size 1. -/
def singleton (v : α) : GTree α :=
  node 1 nil v nil

/-- Mirrors `TripodTree::push_front`: cursor to front, `insert_before(value)`
(modelled from spec §4.3: attach a singleton at the extreme left descendant,
incrementing `size` on every ancestor of the attach point). -/
def pushFront (v : α) : GTree α → GTree α
  | nil => singleton v
  | node s l x r => node (s + 1) (pushFront v l) x r

/-- Mirrors `TripodTree::push_back`: cursor to back, `insert_after(value)`. -/
def pushBack (v : α) : GTree α → GTree α
  | nil => singleton v
  | node s l x r => node (s + 1) l x (pushBack v r)

/-- Mirrors `TripodTree::pop_front`: cursor to front, `remove_current()`
(modelled from spec §4.3: detach the front node, promote its child, and
decrement `size` on every remaining ancestor). Returns the removed value and
the remaining tree, or `none` on the empty tree. -/
def popFront : GTree α → Option (α × GTree α)
  | nil => none
  | node s l v r =>
    match popFront l with
    | some (x, l2) => some (x, node (s - 1) l2 v r)
    | none => some (v, r)

/-- Mirrors `TripodTree::pop_back`: cursor to back, `remove_current()`. -/
def popBack : GTree α → Option (α × GTree α)
  | nil => none
  | node s l v r =>
    match popBack r with
    | some (x, r2) => some (x, node (s - 1) l v r2)
    | none => some (v, l)

end GTree

/-- A range bound, mirroring `core::ops::Bound<usize>`. -/
inductive RBound where
  | included (n : Nat)
  | excluded (n : Nat)
  | unbounded
deriving Repr, DecidableEq

/-- A pair of range bounds, mirroring the `RangeBounds<usize>` argument of
`iter_range` and `split`. -/
structure RangeB where
  start : RBound
  stop : RBound
deriving Repr, DecidableEq

namespace GTree

variable {α : Type}

/-- Mirrors `TripodTree::into_range`: clamp the bounds to `[0, len]`, with
inclusive bounds shifted by one and unbounded sides mapped to 0 and `len`.
Returns (start, end) of the effective half-open range. -/
def intoRange (t : GTree α) (r : RangeB) : Nat × Nat :=
  let length := size t
  let start :=
    match r.start with
    | RBound.included n => min n length
    | RBound.excluded n => min (n + 1) length
    | RBound.unbounded => 0
  let stop :=
    match r.stop with
    | RBound.included n => min (n + 1) length
    | RBound.excluded n => min n length
    | RBound.unbounded => length
  (start, stop)

/-- Mirrors `TripodTree::split`, branch for branch: full range, suffix range,
prefix range, then the interior range done as two `split_off`s and a splice of
the tail back onto `self`. The pair is (new state of `self`, returned tree).
In the interior branch the source computes `range.end - range.start` on
`usize`, which panics when the clamped end is below the clamped start; that
panic is modelled by `none`. -/
def split (t : GTree α) (r : RangeB) : Option (GTree α × GTree α) :=
  let length := size t
  let p := intoRange t r
  let s := p.1
  let e := p.2
  if s = 0 ∧ e = length then
    some (nil, t)
  else if e = length then
    splitOff t s
  else if s = 0 then
    (splitOff t e).map (fun q => (q.2, q.1))
  else
    (splitOff t s).bind (fun q =>
      if e < s then none
      else
        (splitOff q.2 (e - s)).bind (fun q2 =>
          some (join q.1 q2.2, q2.1)))

/-- Mirrors `TripodTree::iter_range`: the bounds are first clamped by
`into_range`, then iteration yields the elements whose global index lies in
the effective range (iterator bounding modelled from spec §4.5; the `iter`
module source is absent). -/
def iterRangeList (t : GTree α) (r : RangeB) : List α :=
  let p := intoRange t r
  ((toList t).take p.2).drop p.1

end GTree

/-- Mirrors `Node::deploy`: `self.tripod.take().expect("Tripod not to be None")`.
Takes the spare handle out of the tripod slot; the panic on an empty slot is
modelled by `none`. On success returns the handle and the emptied slot. -/
def deployTripod {H : Type} : Option H → Option (H × Option H)
  | some h => some (h, none)
  | none => none

/-- Mirrors `Node::retract`: deposit a handle into the tripod slot; the
debug assertion that the slot was empty is modelled by `none` on violation.
On success returns the refilled slot. -/
def retractTripod {H : Type} (slot : Option H) (h : H) : Option (Option H) :=
  match slot with
  | none => some (some h)
  | some _ => none

end TripodTree

/-!
## Helper list lemmas
-/

namespace TripodTree

theorem take_append_left {β : Type} (l1 l2 : List β) (n : Nat) (h : n ≤ l1.length) :
    (l1 ++ l2).take n = l1.take n := by
  rw [List.take_append_eq_append_take, Nat.sub_eq_zero_of_le h]
  simp

theorem drop_append_left {β : Type} (l1 l2 : List β) (n : Nat) (h : n ≤ l1.length) :
    (l1 ++ l2).drop n = l1.drop n ++ l2 := by
  rw [List.drop_append_eq_append_drop, Nat.sub_eq_zero_of_le h]
  simp

theorem take_append_add {β : Type} (l1 l2 : List β) (n : Nat) :
    (l1 ++ l2).take (l1.length + n) = l1 ++ l2.take n := by
  rw [List.take_append_eq_append_take]
  simp

theorem drop_append_add {β : Type} (l1 l2 : List β) (n : Nat) :
    (l1 ++ l2).drop (l1.length + n) = l2.drop n := by
  rw [List.drop_append_eq_append_drop]
  simp

namespace GTree

variable {α : Type}

@[simp] theorem size_nil : size (nil : GTree α) = 0 := rfl

@[simp] theorem size_node (s : Nat) (l : GTree α) (v : α) (r : GTree α) :
    size (node s l v r) = s := rfl

@[simp] theorem toList_nil : toList (nil : GTree α) = [] := rfl

@[simp] theorem toList_node (s : Nat) (l : GTree α) (v : α) (r : GTree α) :
    toList (node s l v r) = toList l ++ v :: toList r := rfl

/-- Unfolding of the size invariant at a node. -/
theorem sizeOk_node_iff (s : Nat) (l : GTree α) (v : α) (r : GTree α) :
    sizeOk (node s l v r) = true ↔
      s = 1 + size l + size r ∧ sizeOk l = true ∧ sizeOk r = true := by
  simp [sizeOk, Bool.and_eq_true, beq_iff_eq, and_assoc]

/-- The computed-size node constructor preserves the size invariant. -/
theorem sizeOk_branch (l r : GTree α) (v : α) (hl : sizeOk l = true)
    (hr : sizeOk r = true) : sizeOk (branch l v r) = true := by
  simp [branch, sizeOk_node_iff, hl, hr]

/-- Under the size invariant, the stored size is the number of elements. -/
theorem size_eq_length (t : GTree α) (h : sizeOk t = true) :
    size t = (toList t).length := by
  induction t with
  | nil => simp [size, toList]
  | node s l v r ihl ihr =>
    obtain ⟨hs, hl, hr⟩ := (sizeOk_node_iff s l v r).mp h
    simp [hs, ihl hl, ihr hr]
    omega

/-- The stored size of a join is the sum of the stored sizes. -/
theorem size_join (a b : GTree α) : size (join a b) = size a + size b := by
  cases a with
  | nil => simp [join, size]
  | node s l v r => simp [join, size]

/-- Joining concatenates the element sequences. -/
theorem toList_join (a b : GTree α) :
    toList (join a b) = toList a ++ toList b := by
  induction a with
  | nil => simp [join, toList]
  | node s l v r ihl ihr => simp [join, toList, ihr, List.append_assoc]

/-- Joining preserves the size invariant. -/
theorem sizeOk_join (a b : GTree α) (ha : sizeOk a = true)
    (hb : sizeOk b = true) : sizeOk (join a b) = true := by
  induction a with
  | nil => simpa [join] using hb
  | node s l v r ihl ihr =>
    obtain ⟨hs, hl, hr⟩ := (sizeOk_node_iff s l v r).mp ha
    exact (sizeOk_node_iff _ _ _ _).mpr
      ⟨by rw [size_join]; omega, hl, ihr hr⟩

end GTree

end TripodTree

namespace TripodTree

namespace GTree

variable {α : Type}

/-- Splitting at the gap before index `i` yields the first `i` elements and
the rest, and both parts satisfy the size invariant. -/
theorem splitAt_spec (t : GTree α) (h : sizeOk t = true) (i : Nat) :
    toList (splitAt t i).1 = (toList t).take i ∧
    toList (splitAt t i).2 = (toList t).drop i ∧
    sizeOk (splitAt t i).1 = true ∧
    sizeOk (splitAt t i).2 = true := by
  induction t generalizing i with
  | nil => simp [splitAt, sizeOk]
  | node s l v r ihl ihr =>
    obtain ⟨hs, hl, hr⟩ := (sizeOk_node_iff s l v r).mp h
    have hllen : size l = (toList l).length := size_eq_length l hl
    by_cases h1 : i < size l
    · obtain ⟨ta, tb, sa, sb⟩ := ihl hl i
      have hle : i ≤ (toList l).length := by omega
      refine ⟨?_, ?_, ?_, ?_⟩
      · simp only [splitAt, if_pos h1, toList_node]
        rw [take_append_left _ _ _ hle, ta]
      · simp only [splitAt, if_pos h1, toList_node, branch]
        rw [drop_append_left _ _ _ hle, tb]
      · simpa only [splitAt, if_pos h1] using sa
      · simp only [splitAt, if_pos h1]
        exact sizeOk_branch _ _ _ sb hr
    · by_cases h2 : i = size l
      · refine ⟨?_, ?_, ?_, ?_⟩
        · simp only [splitAt, if_neg h1, if_pos h2, toList_node]
          rw [h2, hllen, take_append_left _ _ _ (Nat.le_refl _), List.take_length]
        · simp only [splitAt, if_neg h1, if_pos h2, toList_node, branch]
          rw [h2, hllen, drop_append_left _ _ _ (Nat.le_refl _), List.drop_length]
          simp
        · simpa only [splitAt, if_neg h1, if_pos h2] using hl
        · simp only [splitAt, if_neg h1, if_pos h2]
          exact sizeOk_branch _ _ _ rfl hr
      · obtain ⟨ta, tb, sa, sb⟩ := ihr hr (i - size l - 1)
        have hi : i = (toList l).length + ((i - size l - 1) + 1) := by omega
        have keyTake : (toList l ++ v :: toList r).take i
            = toList l ++ v :: (toList r).take (i - size l - 1) := by
          conv_lhs => rw [hi]
          rw [take_append_add, List.take_succ_cons]
        have keyDrop : (toList l ++ v :: toList r).drop i
            = (toList r).drop (i - size l - 1) := by
          conv_lhs => rw [hi]
          rw [drop_append_add, List.drop_succ_cons]
        refine ⟨?_, ?_, ?_, ?_⟩
        · simp only [splitAt, if_neg h1, if_neg h2, toList_node, branch]
          rw [keyTake, ta]
        · simp only [splitAt, if_neg h1, if_neg h2, toList_node]
          rw [keyDrop, tb]
        · simp only [splitAt, if_neg h1, if_neg h2]
          exact sizeOk_branch _ _ _ hl sa
        · simpa only [splitAt, if_neg h1, if_neg h2] using sb

/-- Under the size invariant, the `move_to` descent finds the i-th element of
the in-order sequence. -/
theorem nthNode_eq_getElem (t : GTree α) (h : sizeOk t = true) (i : Nat) :
    i < size t → nthNode t i = (toList t)[i]? := by
  induction t generalizing i with
  | nil => simp [size]
  | node s l v r ihl ihr =>
    intro hi
    obtain ⟨hs, hl, hr⟩ := (sizeOk_node_iff s l v r).mp h
    have hllen : size l = (toList l).length := size_eq_length l hl
    have hrlen : size r = (toList r).length := size_eq_length r hr
    by_cases h1 : i < size l
    · rw [nthNode, if_pos h1, toList_node,
        List.getElem?_append_left (by omega : i < (toList l).length)]
      exact ihl hl i h1
    · by_cases h2 : i = size l
      · rw [nthNode, if_neg h1, if_pos h2, toList_node,
          List.getElem?_append_right (by omega : (toList l).length ≤ i)]
        simp [h2, hllen]
      · rw [nthNode, if_neg h1, if_neg h2, toList_node,
          List.getElem?_append_right (by omega : (toList l).length ≤ i)]
        have hlt : i - size l - 1 < size r := by simp [size_node] at hi; omega
        rw [ihr hr _ hlt]
        have : i - (toList l).length = (i - size l - 1) + 1 := by omega
        rw [this]
        simp

end GTree

end TripodTree

namespace TripodTree

namespace GTree

variable {α : Type}

/-- A tree passing the size invariant with a node at the root has a positive
stored size. -/
theorem size_pos_of_ne_nil (t : GTree α) (h : sizeOk t = true) (hne : t ≠ nil) :
    1 ≤ size t := by
  cases t with
  | nil => exact absurd rfl hne
  | node s l v r =>
    obtain ⟨hs, -, -⟩ := (sizeOk_node_iff s l v r).mp h
    simp only [size_node]
    omega

/-- Popping the front fails exactly on the empty tree. -/
theorem popFront_eq_none_iff (t : GTree α) : popFront t = none ↔ t = nil := by
  cases t with
  | nil => simp [popFront]
  | node s l v r =>
    cases hpl : popFront l with
    | none => simp [popFront, hpl]
    | some p =>
      cases p with
      | mk x l2 => simp [popFront, hpl]

/-- Popping the back fails exactly on the empty tree. -/
theorem popBack_eq_none_iff (t : GTree α) : popBack t = none ↔ t = nil := by
  cases t with
  | nil => simp [popBack]
  | node s l v r =>
    cases hpr : popBack r with
    | none => simp [popBack, hpr]
    | some p =>
      cases p with
      | mk x r2 => simp [popBack, hpr]

/-- Popping the front of an invariant-respecting tree preserves the size
invariant and decrements the size by one. -/
theorem popFront_spec (t : GTree α) (h : sizeOk t = true) (x : α)
    (t2 : GTree α) (he : popFront t = some (x, t2)) :
    sizeOk t2 = true ∧ size t2 = size t - 1 := by
  induction t generalizing x t2 with
  | nil => simp [popFront] at he
  | node s l v r ihl ihr =>
    obtain ⟨hs, hl, hr⟩ := (sizeOk_node_iff s l v r).mp h
    cases hpl : popFront l with
    | none =>
      have hlnil : l = nil := (popFront_eq_none_iff l).mp hpl
      rw [popFront, hpl] at he
      obtain ⟨rfl, rfl⟩ : v = x ∧ r = t2 := by
        simp at he
        exact ⟨he.1, he.2⟩
      subst hlnil
      refine ⟨hr, ?_⟩
      simp at hs
      simp [hs]
    | some p =>
      cases p with
      | mk x0 l2 =>
        rw [popFront, hpl] at he
        obtain ⟨hll2, hsl2⟩ := ihl hl x0 l2 hpl
        have hlpos : 1 ≤ size l := by
          refine size_pos_of_ne_nil l hl ?_
          intro hcon
          rw [hcon] at hpl
          simp [popFront] at hpl
        obtain ⟨rfl, rfl⟩ : x0 = x ∧ node (s - 1) l2 v r = t2 := by
          simp at he
          exact ⟨he.1, he.2⟩
        refine ⟨(sizeOk_node_iff _ _ _ _).mpr ⟨by omega, hll2, hr⟩, by simp⟩

/-- Popping the back of an invariant-respecting tree preserves the size
invariant and decrements the size by one. -/
theorem popBack_spec (t : GTree α) (h : sizeOk t = true) (x : α)
    (t2 : GTree α) (he : popBack t = some (x, t2)) :
    sizeOk t2 = true ∧ size t2 = size t - 1 := by
  induction t generalizing x t2 with
  | nil => simp [popBack] at he
  | node s l v r ihl ihr =>
    obtain ⟨hs, hl, hr⟩ := (sizeOk_node_iff s l v r).mp h
    cases hpr : popBack r with
    | none =>
      have hrnil : r = nil := (popBack_eq_none_iff r).mp hpr
      rw [popBack, hpr] at he
      obtain ⟨rfl, rfl⟩ : v = x ∧ l = t2 := by
        simp at he
        exact ⟨he.1, he.2⟩
      subst hrnil
      refine ⟨hl, ?_⟩
      simp at hs
      simp [hs]
    | some p =>
      cases p with
      | mk x0 r2 =>
        rw [popBack, hpr] at he
        obtain ⟨hrr2, hsr2⟩ := ihr hr x0 r2 hpr
        have hrpos : 1 ≤ size r := by
          refine size_pos_of_ne_nil r hr ?_
          intro hcon
          rw [hcon] at hpr
          simp [popBack] at hpr
        obtain ⟨rfl, rfl⟩ : x0 = x ∧ node (s - 1) l v r2 = t2 := by
          simp at he
          exact ⟨he.1, he.2⟩
        refine ⟨(sizeOk_node_iff _ _ _ _).mpr ⟨by omega, hl, hrr2⟩, by simp⟩

/-- Pushing at the front increments the stored root size by one. -/
theorem size_pushFront (v : α) (t : GTree α) :
    size (pushFront v t) = size t + 1 := by
  cases t with
  | nil => simp [pushFront, singleton]
  | node s l x r => simp [pushFront]

/-- Pushing at the back increments the stored root size by one. -/
theorem size_pushBack (v : α) (t : GTree α) :
    size (pushBack v t) = size t + 1 := by
  cases t with
  | nil => simp [pushBack, singleton]
  | node s l x r => simp [pushBack]

/-- Pushing at the front preserves the size invariant. -/
theorem sizeOk_pushFront (v : α) (t : GTree α) (h : sizeOk t = true) :
    sizeOk (pushFront v t) = true := by
  induction t with
  | nil => simp [pushFront, singleton, sizeOk]
  | node s l x r ihl ihr =>
    obtain ⟨hs, hl, hr⟩ := (sizeOk_node_iff s l x r).mp h
    rw [pushFront]
    refine (sizeOk_node_iff _ _ _ _).mpr ⟨?_, ihl hl, hr⟩
    rw [size_pushFront]
    omega

/-- Pushing at the back preserves the size invariant. -/
theorem sizeOk_pushBack (v : α) (t : GTree α) (h : sizeOk t = true) :
    sizeOk (pushBack v t) = true := by
  induction t with
  | nil => simp [pushBack, singleton, sizeOk]
  | node s l x r ihl ihr =>
    obtain ⟨hs, hl, hr⟩ := (sizeOk_node_iff s l x r).mp h
    rw [pushBack]
    refine (sizeOk_node_iff _ _ _ _).mpr ⟨?_, hl, ihr hr⟩
    rw [size_pushBack]
    omega

/-- The singleton tree satisfies the size invariant. -/
theorem sizeOk_singleton (v : α) : sizeOk (singleton v) = true := by
  simp [singleton, sizeOk]

end GTree

end TripodTree

namespace TripodTree

namespace GTree

variable {α : Type}

/-- Inversion for a successful `split_off`: the precondition held and the
result is the split at the gap. -/
theorem splitOff_eq_some_iff (t : GTree α) (k : Nat) (q : GTree α × GTree α) :
    splitOff t k = some q ↔ k ≤ size t ∧ q = splitAt t k := by
  rw [splitOff]
  by_cases hk : k ≤ size t
  · simp [hk, eq_comm]
  · simp [hk]

/-- Inversion for a failed `split_off`: the precondition was violated. -/
theorem splitOff_eq_none_iff (t : GTree α) (k : Nat) :
    splitOff t k = none ↔ size t < k := by
  rw [splitOff]
  by_cases hk : k ≤ size t
  · rw [if_pos hk]
    constructor
    · intro hc
      exact Option.noConfusion hc
    · intro hc
      omega
  · rw [if_neg hk]
    constructor
    · intro hc
      omega
    · intro hc
      rfl

/-- Both pieces of a successful `split_off` satisfy the size invariant. -/
theorem splitOff_all_sizeOk (t : GTree α) (k : Nat) (h : sizeOk t = true) :
    (splitOff t k).all (fun p => sizeOk p.1 && sizeOk p.2) = true := by
  rw [splitOff]
  by_cases hk : k ≤ size t
  · rw [if_pos hk]
    obtain ⟨-, -, sa, sb⟩ := splitAt_spec t h k
    simp [Option.all, sa, sb]
  · rw [if_neg hk]
    rfl

/-- Both pieces of a successful `split` satisfy the size invariant. -/
theorem split_all_sizeOk (t : GTree α) (r : RangeB) (h : sizeOk t = true) :
    (split t r).all (fun p => sizeOk p.1 && sizeOk p.2) = true := by
  rw [split]
  by_cases h1 : (intoRange t r).1 = 0 ∧ (intoRange t r).2 = size t
  · rw [if_pos h1]
    simp [Option.all, h, sizeOk]
  · rw [if_neg h1]
    by_cases h2 : (intoRange t r).2 = size t
    · rw [if_pos h2]
      exact splitOff_all_sizeOk t _ h
    · rw [if_neg h2]
      by_cases h3 : (intoRange t r).1 = 0
      · rw [if_pos h3]
        cases hq : splitOff t (intoRange t r).2 with
        | none => rfl
        | some q =>
          obtain ⟨hk, rfl⟩ := (splitOff_eq_some_iff t _ q).mp hq
          obtain ⟨-, -, sa, sb⟩ := splitAt_spec t h (intoRange t r).2
          simp [Option.all, sa, sb]
      · rw [if_neg h3]
        cases hq : splitOff t (intoRange t r).1 with
        | none => rfl
        | some q =>
          obtain ⟨hk, rfl⟩ := (splitOff_eq_some_iff t _ q).mp hq
          obtain ⟨-, -, sa, sb⟩ := splitAt_spec t h (intoRange t r).1
          rw [Option.some_bind]
          by_cases h4 : (intoRange t r).2 < (intoRange t r).1
          · rw [if_pos h4]
            rfl
          · rw [if_neg h4]
            cases hq2 : splitOff (splitAt t (intoRange t r).1).2
                ((intoRange t r).2 - (intoRange t r).1) with
            | none => rfl
            | some q2 =>
              rw [Option.some_bind]
              obtain ⟨hk2, rfl⟩ := (splitOff_eq_some_iff _ _ q2).mp hq2
              obtain ⟨-, -, sa2, sb2⟩ := splitAt_spec _ sb
                ((intoRange t r).2 - (intoRange t r).1)
              simp [Option.all, sa2, sizeOk_join _ _ sa sb2]

/-- The range splitter depends on its range argument only through the
effective clamped range. -/
theorem split_congr (t : GTree α) (r1 r2 : RangeB)
    (h : intoRange t r1 = intoRange t r2) : split t r1 = split t r2 := by
  simp only [split, h]

/-- Bounded iteration depends on its range argument only through the
effective clamped range. -/
theorem iterRange_congr (t : GTree α) (r1 r2 : RangeB)
    (h : intoRange t r1 = intoRange t r2) :
    iterRangeList t r1 = iterRangeList t r2 := by
  simp only [iterRangeList, h]

end GTree

end TripodTree

/-!
## Claim theorems
-/

namespace TripodTree

namespace GTree

variable {α : Type}

/-- C3: after `A.append(B)`, the combined tree iterates as A's elements
followed by B's in that order, its stored length is the sum of the two
stored lengths, and B is left empty. -/
theorem claim_append_spec (a b : GTree α) :
    toList (append a b).1 = toList a ++ toList b ∧
    size (append a b).1 = size a + size b ∧
    isEmpty (append a b).2 = true :=
  ⟨toList_join a b, size_join a b, rfl⟩

/-- C4: for an invariant-respecting tree and an in-bounds index, `at(i)`
returns exactly the i-th element of the iteration order. -/
theorem claim_at_eq_iter (t : GTree α) (i : Nat) (h1 : sizeOk t = true)
    (h2 : i < size t) : treeAt t i = (toList t)[i]? := by
  rw [treeAt, if_neg (by omega)]
  exact nthNode_eq_getElem t h1 i h2

/-- C4 witness: the claim applied to a concrete three-element tree at index 1. -/
theorem claim_at_eq_iter_witness :
    sizeOk (node 3 (node 1 nil 10 nil) 20 (node 1 nil 30 nil) : GTree Nat) = true ∧
    1 < size (node 3 (node 1 nil 10 nil) 20 (node 1 nil 30 nil) : GTree Nat) ∧
    treeAt (node 3 (node 1 nil 10 nil) 20 (node 1 nil 30 nil) : GTree Nat) 1
      = (toList (node 3 (node 1 nil 10 nil) 20 (node 1 nil 30 nil) : GTree Nat))[1]? :=
  ⟨by decide, by decide,
    claim_at_eq_iter (node 3 (node 1 nil 10 nil) 20 (node 1 nil 30 nil))
      1 (by decide) (by decide)⟩

/-- C9: `at(i)` on an index at or past the length returns `None`; the receiver
is not touched (the model is pure, and the source checks the bound before
constructing any cursor). -/
theorem claim_at_out_of_bounds (t : GTree α) (i : Nat) (h : size t ≤ i) :
    treeAt t i = none := by
  rw [treeAt, if_pos (by omega)]

/-- C9 witness: the claim applied to the empty tree at index 0 and a concrete
two-element tree at index 2. -/
theorem claim_at_out_of_bounds_witness :
    size (nil : GTree Nat) ≤ 0 ∧ treeAt (nil : GTree Nat) 0 = none ∧
    size (node 2 nil 5 (node 1 nil 6 nil) : GTree Nat) ≤ 2 ∧
    treeAt (node 2 nil 5 (node 1 nil 6 nil) : GTree Nat) 2 = none :=
  ⟨by decide, claim_at_out_of_bounds nil 0 (by decide),
    by decide, claim_at_out_of_bounds (node 2 nil 5 (node 1 nil 6 nil)) 2 (by decide)⟩

/-- C7: `split_off(at)` fails (panics, modelled by `none`) exactly when
`at > len`; an accepted call splits the sequence at the gap before `at`.
The precondition is checked before any mutation, so a rejected call leaves
the tree untouched. -/
theorem claim_split_off_precondition (t : GTree α) (i : Nat)
    (h : sizeOk t = true) :
    (splitOff t i = none ↔ size t < i) ∧
    (∀ a b, splitOff t i = some (a, b) →
      toList a = (toList t).take i ∧ toList b = (toList t).drop i) := by
  refine ⟨splitOff_eq_none_iff t i, ?_⟩
  intro a b hab
  obtain ⟨hle, hq⟩ := (splitOff_eq_some_iff t i (a, b)).mp hab
  obtain ⟨h1, h2, -, -⟩ := splitAt_spec t h i
  rw [← hq] at h1 h2
  exact ⟨h1, h2⟩

/-- C7 witness: the claim applied to a concrete two-element tree, with the
split performed at index 1. -/
theorem claim_split_off_precondition_witness :
    sizeOk (node 2 nil 5 (node 1 nil 6 nil) : GTree Nat) = true ∧
    ((splitOff (node 2 nil 5 (node 1 nil 6 nil) : GTree Nat) 3 = none ↔
      size (node 2 nil 5 (node 1 nil 6 nil) : GTree Nat) < 3) ∧
    (∀ a b, splitOff (node 2 nil 5 (node 1 nil 6 nil) : GTree Nat) 3 = some (a, b) →
      toList a = (toList (node 2 nil 5 (node 1 nil 6 nil) : GTree Nat)).take 3 ∧
      toList b = (toList (node 2 nil 5 (node 1 nil 6 nil) : GTree Nat)).drop 3)) :=
  ⟨by decide, claim_split_off_precondition (node 2 nil 5 (node 1 nil 6 nil)) 3 (by decide)⟩

/-- C2: splitting at any valid index and appending the returned tree back
onto the receiver reproduces the original sequence and length exactly. -/
theorem claim_split_off_append_roundtrip (t : GTree α) (k : Nat)
    (h1 : sizeOk t = true) (h2 : k ≤ size t) :
    ∃ a b, splitOff t k = some (a, b) ∧
      toList (append a b).1 = toList t ∧
      size (append a b).1 = size t := by
  obtain ⟨ta, tb, sa, sb⟩ := splitAt_spec t h1 k
  refine ⟨(splitAt t k).1, (splitAt t k).2, ?_, ?_, ?_⟩
  · rw [splitOff, if_pos h2]
  · show toList (join (splitAt t k).1 (splitAt t k).2) = toList t
    rw [toList_join, ta, tb, List.take_append_drop]
  · show size (join (splitAt t k).1 (splitAt t k).2) = size t
    rw [size_join, size_eq_length _ sa, size_eq_length _ sb, ta, tb,
      size_eq_length t h1]
    have hk2 : k ≤ (toList t).length := by
      rw [← size_eq_length t h1]
      exact h2
    simp only [List.length_take, List.length_drop]
    rw [Nat.min_eq_left hk2]
    omega

/-- C2 witness: the claim applied to a concrete three-element tree at k = 2. -/
theorem claim_split_off_append_roundtrip_witness :
    sizeOk (node 3 (node 1 nil 10 nil) 20 (node 1 nil 30 nil) : GTree Nat) = true ∧
    2 ≤ size (node 3 (node 1 nil 10 nil) 20 (node 1 nil 30 nil) : GTree Nat) ∧
    ∃ a b, splitOff (node 3 (node 1 nil 10 nil) 20 (node 1 nil 30 nil) : GTree Nat) 2
        = some (a, b) ∧
      toList (append a b).1
        = toList (node 3 (node 1 nil 10 nil) 20 (node 1 nil 30 nil) : GTree Nat) ∧
      size (append a b).1
        = size (node 3 (node 1 nil 10 nil) 20 (node 1 nil 30 nil) : GTree Nat) :=
  ⟨by decide, by decide,
    claim_split_off_append_roundtrip (node 3 (node 1 nil 10 nil) 20 (node 1 nil 30 nil))
      2 (by decide) (by decide)⟩

end GTree

/-- C8: `deploy` on an occupied tripod slot removes and returns the spare
handle leaving the slot empty; on an empty slot it fails fatally (`none`);
hence deploying twice without an intervening retract always aborts. -/
theorem claim_deploy_double {H : Type} (h : H) (slot : Option H) :
    deployTripod (none : Option H) = none ∧
    deployTripod (some h) = some (h, none) ∧
    (deployTripod slot).bind (fun p => deployTripod p.2) = none := by
  refine ⟨rfl, rfl, ?_⟩
  cases slot with
  | none => rfl
  | some h0 => rfl

end TripodTree

namespace TripodTree

namespace GTree

variable {α : Type}

/-- C5: the stored-size invariant (`size == 1 + left.size + right.size` at
every node, recursively) holds for every tree produced by the public
operations from invariant-respecting inputs, and under it the tree's `len()`
(the root's stored size, 0 when empty) equals the number of elements. -/
theorem claim_size_invariant (t u : GTree α) (v : α) (k : Nat) (r : RangeB)
    (ht : sizeOk t = true) (hu : sizeOk u = true) :
    sizeOk (nil : GTree α) = true ∧
    sizeOk (singleton v) = true ∧
    sizeOk (pushFront v t) = true ∧
    sizeOk (pushBack v t) = true ∧
    (popFront t).all (fun p => sizeOk p.2) = true ∧
    (popBack t).all (fun p => sizeOk p.2) = true ∧
    sizeOk (append t u).1 = true ∧
    sizeOk (append t u).2 = true ∧
    sizeOk (prepend t u).1 = true ∧
    (splitOff t k).all (fun p => sizeOk p.1 && sizeOk p.2) = true ∧
    (split t r).all (fun p => sizeOk p.1 && sizeOk p.2) = true ∧
    size t = (toList t).length := by
  refine ⟨rfl, sizeOk_singleton v, sizeOk_pushFront v t ht, sizeOk_pushBack v t ht,
    ?_, ?_, sizeOk_join t u ht hu, rfl, sizeOk_join u t hu ht,
    splitOff_all_sizeOk t k ht, split_all_sizeOk t r ht, size_eq_length t ht⟩
  · cases hp : popFront t with
    | none => rfl
    | some p =>
      cases p with
      | mk x t2 =>
        obtain ⟨hok, -⟩ := popFront_spec t ht x t2 hp
        simp [Option.all, hok]
  · cases hp : popBack t with
    | none => rfl
    | some p =>
      cases p with
      | mk x t2 =>
        obtain ⟨hok, -⟩ := popBack_spec t ht x t2 hp
        simp [Option.all, hok]

/-- C5 witness: the claim applied to two concrete trees, a value, an index
and a range. -/
theorem claim_size_invariant_witness :
    sizeOk (node 3 (node 1 nil 10 nil) 20 (node 1 nil 30 nil) : GTree Nat) = true ∧
    sizeOk (node 2 nil 7 (node 1 nil 8 nil) : GTree Nat) = true ∧
    ((popFront (node 3 (node 1 nil 10 nil) 20 (node 1 nil 30 nil) : GTree Nat)).all
        (fun p => sizeOk p.2) = true ∧
      (split (node 3 (node 1 nil 10 nil) 20 (node 1 nil 30 nil) : GTree Nat)
          ⟨RBound.included 1, RBound.excluded 2⟩).all
        (fun p => sizeOk p.1 && sizeOk p.2) = true ∧
      size (node 3 (node 1 nil 10 nil) 20 (node 1 nil 30 nil) : GTree Nat)
        = (toList (node 3 (node 1 nil 10 nil) 20 (node 1 nil 30 nil) : GTree Nat)).length) := by
  have h := claim_size_invariant
    (node 3 (node 1 nil 10 nil) 20 (node 1 nil 30 nil) : GTree Nat)
    (node 2 nil 7 (node 1 nil 8 nil)) 42 1
    ⟨RBound.included 1, RBound.excluded 2⟩ (by decide) (by decide)
  exact ⟨by decide, by decide, h.2.2.2.2.1, h.2.2.2.2.2.2.2.2.2.2.1, h.2.2.2.2.2.2.2.2.2.2.2⟩

end GTree

end TripodTree

namespace TripodTree

namespace GTree

variable {α : Type}

/-- C10: `iter_range` and `split` clamp their bounds through `into_range`:
the effective start is `min(start, len)` and the effective end is
`min(end, len)`, inclusive bounds are shifted by one and unbounded sides map
to 0 and `len`.  Consequently a range whose end exceeds `len` behaves exactly
as if the end were `len`, and `split` succeeds on it (no fatal precondition
failure, in contrast with `split_off`). -/
theorem claim_range_clamping (t : GTree α) (s e : Nat) (he : size t ≤ e) :
    (∀ a b, intoRange t ⟨RBound.included a, RBound.excluded b⟩
      = (min a (size t), min b (size t))) ∧
    (∀ a b, intoRange t ⟨RBound.excluded a, RBound.included b⟩
      = (min (a + 1) (size t), min (b + 1) (size t))) ∧
    intoRange t ⟨RBound.unbounded, RBound.unbounded⟩ = (0, size t) ∧
    iterRangeList t ⟨RBound.included s, RBound.excluded e⟩
      = iterRangeList t ⟨RBound.included s, RBound.excluded (size t)⟩ ∧
    split t ⟨RBound.included s, RBound.excluded e⟩
      = split t ⟨RBound.included s, RBound.excluded (size t)⟩ ∧
    (split t ⟨RBound.included s, RBound.excluded e⟩).isSome = true := by
  have hkey : intoRange t ⟨RBound.included s, RBound.excluded e⟩
      = intoRange t ⟨RBound.included s, RBound.excluded (size t)⟩ := by
    simp [intoRange, Nat.min_eq_right he]
  refine ⟨?_, ?_, ?_, iterRange_congr t _ _ hkey, split_congr t _ _ hkey, ?_⟩
  · intro a b
    simp [intoRange]
  · intro a b
    simp [intoRange]
  · simp [intoRange]
  · have hir : intoRange t ⟨RBound.included s, RBound.excluded e⟩
        = (min s (size t), size t) := by
      simp [intoRange, Nat.min_eq_right he]
    rw [split, hir]
    by_cases h0 : min s (size t) = 0
    · rw [if_pos ⟨h0, rfl⟩]
      rfl
    · rw [if_neg (by simp [h0]), if_pos rfl, splitOff,
        if_pos (Nat.min_le_right s (size t))]
      rfl

/-- C10 witness: the claim applied to a concrete three-element tree with a
range end of 7, past the length. -/
theorem claim_range_clamping_witness :
    size (node 3 (node 1 nil 10 nil) 20 (node 1 nil 30 nil) : GTree Nat) ≤ 7 ∧
    (iterRangeList (node 3 (node 1 nil 10 nil) 20 (node 1 nil 30 nil) : GTree Nat)
        ⟨RBound.included 1, RBound.excluded 7⟩
      = iterRangeList (node 3 (node 1 nil 10 nil) 20 (node 1 nil 30 nil) : GTree Nat)
        ⟨RBound.included 1,
          RBound.excluded (size (node 3 (node 1 nil 10 nil) 20 (node 1 nil 30 nil) : GTree Nat))⟩ ∧
    (split (node 3 (node 1 nil 10 nil) 20 (node 1 nil 30 nil) : GTree Nat)
        ⟨RBound.included 1, RBound.excluded 7⟩).isSome = true) := by
  have h := claim_range_clamping
    (node 3 (node 1 nil 10 nil) 20 (node 1 nil 30 nil) : GTree Nat) 1 7 (by decide)
  exact ⟨by decide, h.2.2.2.1, h.2.2.2.2.2⟩

end GTree

end TripodTree

namespace TripodTree

namespace GTree

variable {α : Type}

/-- C1: for `0 ≤ s ≤ e ≤ len`, `split(s..e)` returns a tree of length `e - s`
iterating as the elements at positions `s..e` of the original order, and the
receiver is left iterating as the elements at positions `[0,s)` followed by
those at `[e,len)`. -/
theorem claim_split_range (t : GTree α) (s e : Nat) (h1 : sizeOk t = true)
    (h2 : s ≤ e) (h3 : e ≤ size t) :
    ∃ rest ret,
      split t ⟨RBound.included s, RBound.excluded e⟩ = some (rest, ret) ∧
      toList ret = ((toList t).take e).drop s ∧
      size ret = e - s ∧
      toList rest = (toList t).take s ++ (toList t).drop e := by
  have hse : s ≤ size t := le_trans h2 h3
  have hlen : size t = (toList t).length := size_eq_length t h1
  have hir : intoRange t ⟨RBound.included s, RBound.excluded e⟩ = (s, e) := by
    simp [intoRange, Nat.min_eq_left hse, Nat.min_eq_left h3]
  rw [split, hir]
  dsimp only
  by_cases hFull : s = 0 ∧ e = size t
  · rw [if_pos hFull]
    obtain ⟨rfl, rfl⟩ := hFull
    refine ⟨nil, t, rfl, ?_, ?_, ?_⟩
    · rw [hlen, List.take_length, List.drop_zero]
    · omega
    · rw [hlen, List.drop_length, List.take_zero, List.nil_append, toList]
  · rw [if_neg hFull]
    obtain ⟨ta, tb, sa, sb⟩ := splitAt_spec t h1 s
    by_cases hE : e = size t
    · rw [if_pos hE]
      refine ⟨(splitAt t s).1, (splitAt t s).2, ?_, ?_, ?_, ?_⟩
      · rw [splitOff, if_pos hse]
      · rw [tb, hE, hlen, List.take_length]
      · rw [size_eq_length _ sb, tb, List.length_drop, hE, hlen]
      · rw [ta, hE, hlen, List.drop_length, List.append_nil]
    · rw [if_neg hE]
      obtain ⟨ea, eb, esa, esb⟩ := splitAt_spec t h1 e
      by_cases hS : s = 0
      · rw [if_pos hS]
        refine ⟨(splitAt t e).2, (splitAt t e).1, ?_, ?_, ?_, ?_⟩
        · rw [splitOff, if_pos h3]
          rfl
        · rw [ea, hS, List.drop_zero]
        · rw [size_eq_length _ esa, ea, List.length_take, hS, Nat.sub_zero,
            Nat.min_eq_left (by omega)]
        · rw [eb, hS, List.take_zero, List.nil_append]
      · rw [if_neg hS, splitOff, if_pos hse, Option.some_bind,
          if_neg (by omega)]
        have hsnd : size (splitAt t s).2 = (toList t).length - s := by
          rw [size_eq_length _ sb, tb, List.length_drop]
        obtain ⟨ta2, tb2, sa2, sb2⟩ := splitAt_spec (splitAt t s).2 sb (e - s)
        refine ⟨join (splitAt t s).1 (splitAt (splitAt t s).2 (e - s)).2,
          (splitAt (splitAt t s).2 (e - s)).1, ?_, ?_, ?_, ?_⟩
        · rw [splitOff, if_pos (by omega), Option.some_bind]
        · rw [ta2, tb, List.drop_take]
        · rw [size_eq_length _ sa2, ta2, tb, List.length_take, List.length_drop,
            Nat.min_eq_left (by omega)]
        · rw [toList_join, ta, tb2, tb, List.drop_drop]
          have hadd : s + (e - s) = e := by omega
          rw [hadd]

end GTree

end TripodTree

namespace TripodTree

namespace GTree

/-- C1 witness: the claim applied to a concrete three-element tree with the
range 1..2. -/
theorem claim_split_range_witness :
    sizeOk (node 3 (node 1 nil 10 nil) 20 (node 1 nil 30 nil) : GTree Nat) = true ∧
    (1 : Nat) ≤ 2 ∧
    2 ≤ size (node 3 (node 1 nil 10 nil) 20 (node 1 nil 30 nil) : GTree Nat) ∧
    ∃ rest ret,
      split (node 3 (node 1 nil 10 nil) 20 (node 1 nil 30 nil) : GTree Nat)
        ⟨RBound.included 1, RBound.excluded 2⟩ = some (rest, ret) ∧
      toList ret
        = ((toList (node 3 (node 1 nil 10 nil) 20 (node 1 nil 30 nil) : GTree Nat)).take 2).drop 1 ∧
      size ret = 2 - 1 ∧
      toList rest
        = (toList (node 3 (node 1 nil 10 nil) 20 (node 1 nil 30 nil) : GTree Nat)).take 1
          ++ (toList (node 3 (node 1 nil 10 nil) 20 (node 1 nil 30 nil) : GTree Nat)).drop 2 :=
  ⟨by decide, by decide, by decide,
    claim_split_range (node 3 (node 1 nil 10 nil) 20 (node 1 nil 30 nil))
      1 2 (by decide) (by decide) (by decide)⟩

end GTree

end TripodTree
